import Mathlib

/-! Key-handle codec, shared-secret sizer and engine binder of `qkd_engine_common.c`.

A shallow embedding of the four functions of `src/qkd_engine_common.c`:

* `QKD_bignum_to_key_handle` and `QKD_key_handle_to_bignum` (the key-handle codec),
* `QKD_shared_secret_nr_bytes` (the shared-secret sizer),
* `QKD_engine_bind` (the ordered registration sequence).

The OpenSSL functions the file calls (`BN_num_bytes`, `BN_bn2bin`, `BN_bin2bn`, `memset`,
`DH_meth_new`, the `DH_meth_set_*` and `ENGINE_set_*` setters) are library code; they are
modelled after their documented behaviour.  A `BIGNUM` is an integer (sign and magnitude), a
byte is a natural number below 256, and a byte buffer is a list of bytes.  The handle size
`QKD_KEY_HANDLE_SIZE` is declared in a header that is not part of the sources, so it is a
parameter `N` of the codec.  Byte counts are natural numbers: the C code holds them in `int`,
which no big number OpenSSL can represent overflows.
-/

namespace QKD

/-! ## Big numbers and byte buffers -/

/-- An OpenSSL big number: an arbitrary-precision integer with a sign. -/
abbrev BIGNUM := Int

/-- Number of binary digits of `m`, by repeated halving; `fuel` bounds the number of halvings. -/
def numBitsAux : Nat → Nat → Nat
  | 0, _ => 0
  | fuel + 1, m => if m = 0 then 0 else numBitsAux fuel (m / 2) + 1

/-- The library function `BN_num_bits`: the number of significant bits of the magnitude of `a`
(0 for zero). -/
def BN_num_bits (a : BIGNUM) : Nat :=
  numBitsAux a.natAbs a.natAbs

/-- The library macro `BN_num_bytes(a)`, which is `(BN_num_bits(a) + 7) / 8`. -/
def BN_num_bytes (a : BIGNUM) : Nat :=
  (BN_num_bits a + 7) / 8

/-- Overwrite the bytes of `buf` from offset `off` on with `data`. -/
def memWrite (buf : List Nat) (off : Nat) (data : List Nat) : List Nat :=
  buf.take off ++ data ++ buf.drop (off + data.length)

/-- The bytes `BN_bn2bin` emits: for `i = n - 1` down to `0` the byte `(|a| >> 8 i) & 0xff`,
where `n = BN_num_bytes a`, most significant byte first. -/
def bn2binBytes (a : BIGNUM) : List Nat :=
  (List.range (BN_num_bytes a)).map
    (fun j => a.natAbs / 2 ^ (8 * (BN_num_bytes a - 1 - j)) % 256)

/-- The library function `BN_bn2bin(a, to)`: stores the magnitude of `a` in big-endian form at
the start of the buffer `to_` and returns the number of bytes stored together with the buffer. -/
def BN_bn2bin (a : BIGNUM) (to_ : List Nat) : Nat × List Nat :=
  ((bn2binBytes a).length, memWrite to_ 0 (bn2binBytes a))

/-- The library function `BN_bin2bn(s, len, ret)`: the non-negative integer whose big-endian
representation is the first `len` bytes of `s` (accumulating `l = (l << 8) | byte`). -/
def BN_bin2bn (s : List Nat) (len : Nat) : BIGNUM :=
  Int.ofNat ((s.take len).foldl (fun l b => l * 256 + b) 0)

/-- The library function `memset(s + off, c, n)` on the buffer `s`. -/
def memset (s : List Nat) (off : Nat) (c : Nat) (n : Nat) : List Nat :=
  memWrite s off (List.replicate n c)

/-- Modelled from the spec: the type `QKD_key_handle_t`, whose declaration is in a header that
is not among the sources; a key handle is a fixed-length sequence of bytes held in the field
`bytes`. -/
structure QKD_key_handle_t where
  bytes : List Nat
deriving DecidableEq, Repr

/-- A key handle is well formed for handle size `N` when it holds exactly `N` values, each of
them a byte. -/
def QKD_key_handle_t.WellFormed (N : Nat) (h : QKD_key_handle_t) : Prop :=
  h.bytes.length = N ∧ ∀ b ∈ h.bytes, b < 256

/-! ## The key-handle codec -/

/-- The function `QKD_bignum_to_key_handle`, with `N = QKD_KEY_HANDLE_SIZE`.  The result is
`none` when the `assert` aborts, and otherwise the returned status together with the contents
of `*key_handle` afterwards. -/
def QKD_bignum_to_key_handle (N : Nat) (bn : BIGNUM) (key_handle : QKD_key_handle_t) :
    Option (Int × QKD_key_handle_t) :=
  let bn_num_bytes := BN_num_bytes bn
  if bn_num_bytes > N then
    some (0, key_handle)
  else
    let (copied_bytes, bytes) := BN_bn2bin bn key_handle.bytes
    if copied_bytes = bn_num_bytes then
      let num_padding_bytes := N - copied_bytes
      some (1, { bytes := memset bytes copied_bytes 0 num_padding_bytes })
    else
      none

/-- The function `QKD_key_handle_to_bignum`, with `N = QKD_KEY_HANDLE_SIZE`: the value stored
in `*bn`.  `BN_bin2bn` is given a destination, so it returns that destination and the `assert`
holds; running out of memory inside the library is outside the model. -/
def QKD_key_handle_to_bignum (N : Nat) (key_handle : QKD_key_handle_t) : BIGNUM :=
  BN_bin2bn key_handle.bytes N

/-! ## The shared-secret sizer -/

/-- The Diffie-Hellman object as far as `DH_get0_pqg` reads it: the prime modulus `p`, the
optional subgroup order `q` and the generator `g`. -/
structure DH where
  p : BIGNUM
  q : Option BIGNUM
  g : BIGNUM
deriving DecidableEq, Repr

/-- The library function `DH_get0_pqg`: hands out the three domain parameters. -/
def DH_get0_pqg (dh : DH) : BIGNUM × Option BIGNUM × BIGNUM :=
  (dh.p, dh.q, dh.g)

/-- The function `QKD_shared_secret_nr_bytes`; the global flag `running_on_simulaqron` is an
explicit argument. -/
def QKD_shared_secret_nr_bytes (running_on_simulaqron : Bool) (dh : DH) : Int :=
  if running_on_simulaqron then
    8
  else
    let p := (DH_get0_pqg dh).1
    (BN_num_bytes p : Int)

/-! ## The engine binder

The seven framework primitives are library code.  Each one is modelled by its documented
effect on the method table or the engine, taken when it reports success, and by the status it
returns, which the host supplies: a primitive that does not report success leaves the state as
it was.  Every primitive records its own call, so that the order of the calls can be stated.
-/

/-- A function pointer, identified by its address. -/
abbrev FnPtr := Nat

/-- The seven framework primitives `QKD_engine_bind` calls, in the order of the calls. -/
inductive Primitive where
  | DH_meth_new
  | DH_meth_set_generate_key
  | DH_meth_set_compute_key
  | ENGINE_set_id
  | ENGINE_set_name
  | ENGINE_set_DH
  | ENGINE_set_init_function
deriving DecidableEq, Repr

/-- The C identifier of a framework primitive, as written at its call site. -/
def Primitive.name : Primitive → String
  | .DH_meth_new => "DH_meth_new"
  | .DH_meth_set_generate_key => "DH_meth_set_generate_key"
  | .DH_meth_set_compute_key => "DH_meth_set_compute_key"
  | .ENGINE_set_id => "ENGINE_set_id"
  | .ENGINE_set_name => "ENGINE_set_name"
  | .ENGINE_set_DH => "ENGINE_set_DH"
  | .ENGINE_set_init_function => "ENGINE_set_init_function"

/-- The library type `DH_METHOD`: a named method table with its two key callbacks. -/
structure DH_METHOD where
  name : String
  flags : Int
  generate_key : Option FnPtr
  compute_key : Option FnPtr
deriving DecidableEq, Repr

/-- The library type `ENGINE`, as far as the four setters used here write it. -/
structure ENGINE where
  id : Option String
  name : Option String
  dh_meth : Option DH_METHOD
  init : Option FnPtr
deriving DecidableEq, Repr

/-- What the host framework answers to each primitive during one bind attempt: whether
`DH_meth_new` hands out a table, and the status each setter returns. -/
structure Host where
  meth_new : Bool
  set_generate_key : Int
  set_compute_key : Int
  set_id : Int
  set_name : Int
  set_DH : Int
  set_init_function : Int
deriving DecidableEq, Repr

/-- The state a bind attempt acts on: the engine, the method table allocated by `DH_meth_new`
(if any), the primitives called so far and the error report written so far. -/
structure World where
  engine : ENGINE
  dh_method : Option DH_METHOD
  calls : List Primitive
  report : List String
deriving DecidableEq, Repr

/-- The world in which a bind attempt on `engine` starts. -/
def World.start (engine : ENGINE) : World :=
  { engine := engine, dh_method := none, calls := [], report := [] }

/-- The library function `DH_meth_new(name, flags)`: a fresh table with no callbacks, or `NULL`
(here `false`). -/
def DH_meth_new (host : Host) (w : World) (name : String) (flags : Int) : Bool × World :=
  let w := { w with calls := w.calls ++ [Primitive.DH_meth_new] }
  let dhm : DH_METHOD :=
    { name := name, flags := flags, generate_key := none, compute_key := none }
  if host.meth_new then
    (true, { w with dh_method := some dhm })
  else
    (false, w)

/-- The library function `DH_meth_set_generate_key(dhm, generate_key)`. -/
def DH_meth_set_generate_key (host : Host) (w : World) (generate_key : FnPtr) : Int × World :=
  let w := { w with calls := w.calls ++ [Primitive.DH_meth_set_generate_key] }
  if host.set_generate_key = 1 then
    let set := fun (dhm : DH_METHOD) => { dhm with generate_key := some generate_key }
    (1, { w with dh_method := w.dh_method.map set })
  else
    (host.set_generate_key, w)

/-- The library function `DH_meth_set_compute_key(dhm, compute_key)`. -/
def DH_meth_set_compute_key (host : Host) (w : World) (compute_key : FnPtr) : Int × World :=
  let w := { w with calls := w.calls ++ [Primitive.DH_meth_set_compute_key] }
  if host.set_compute_key = 1 then
    let set := fun (dhm : DH_METHOD) => { dhm with compute_key := some compute_key }
    (1, { w with dh_method := w.dh_method.map set })
  else
    (host.set_compute_key, w)

/-- The library function `ENGINE_set_id(e, id)`. -/
def ENGINE_set_id (host : Host) (w : World) (id : String) : Int × World :=
  let w := { w with calls := w.calls ++ [Primitive.ENGINE_set_id] }
  if host.set_id = 1 then
    (1, { w with engine := { w.engine with id := some id } })
  else
    (host.set_id, w)

/-- The library function `ENGINE_set_name(e, name)`. -/
def ENGINE_set_name (host : Host) (w : World) (name : String) : Int × World :=
  let w := { w with calls := w.calls ++ [Primitive.ENGINE_set_name] }
  if host.set_name = 1 then
    (1, { w with engine := { w.engine with name := some name } })
  else
    (host.set_name, w)

/-- The library function `ENGINE_set_DH(e, dh_meth)`: attaches the method table. -/
def ENGINE_set_DH (host : Host) (w : World) : Int × World :=
  let w := { w with calls := w.calls ++ [Primitive.ENGINE_set_DH] }
  if host.set_DH = 1 then
    (1, { w with engine := { w.engine with dh_meth := w.dh_method } })
  else
    (host.set_DH, w)

/-- The library function `ENGINE_set_init_function(e, init_f)`. -/
def ENGINE_set_init_function (host : Host) (w : World) (init_f : FnPtr) : Int × World :=
  let w := { w with calls := w.calls ++ [Primitive.ENGINE_set_init_function] }
  if host.set_init_function = 1 then
    (1, { w with engine := { w.engine with init := some init_f } })
  else
    (host.set_init_function, w)

/-- Modelled from the spec: the macro `QKD_error`, used by `QKD_engine_bind` but not declared
in the given `qkd_debug.h`; it reports its message, here by appending it to the error report.
The macros `QKD_return_error` and `QKD_return_success`, missing as well, return their value. -/
def QKD_error (w : World) (msg : String) : World :=
  { w with report := w.report ++ [msg] }

/-- The function `QKD_engine_bind`: the returned status and the world afterwards. -/
def QKD_engine_bind (host : Host) (w : World) (engine_id engine_name : String)
    (generate_key compute_key engine_init : FnPtr) : Int × World :=
  let flags : Int := 0
  let (dh_method, w) := DH_meth_new host w "ETSI QKD Client Method" flags
  if dh_method = false then
    (0, QKD_error w "DH_new_method failed")
  else
    let (result, w) := DH_meth_set_generate_key host w generate_key
    if 1 ≠ result then
      (0, QKD_error w "DH_meth_set_generate_key failed")
    else
      let (result, w) := DH_meth_set_compute_key host w compute_key
      if 1 ≠ result then
        (0, QKD_error w "DH_meth_set_compute_key failed")
      else
        let (result, w) := ENGINE_set_id host w engine_id
        if 1 ≠ result then
          (0, QKD_error w "ENGINE_set_id failed")
        else
          let (result, w) := ENGINE_set_name host w engine_name
          if 1 ≠ result then
            (0, QKD_error w "ENGINE_set_name failed")
          else
            let (result, w) := ENGINE_set_DH host w
            if 1 ≠ result then
              (0, QKD_error w "ENGINE_set_DH failed")
            else
              let (result, w) := ENGINE_set_init_function host w engine_init
              if 1 ≠ result then
                (0, QKD_error w "ENGINE_set_init_function failed")
              else
                (1, w)

/-! ## Specification-side notions -/

/-- The minimal byte length of a natural number: the least `L` with `m < 256 ^ L`. -/
def minByteLen (m : Nat) : Nat :=
  Nat.find (⟨m, Nat.lt_pow_self (by norm_num) m⟩ : ∃ L, m < 256 ^ L)

/-- The big-endian value of the first `n` positions of a byte list: the sum over `i < n` of
`l[i] * 256 ^ (n - 1 - i)`. -/
def bigEndianValue (l : List Nat) (n : Nat) : Nat :=
  ∑ i in Finset.range n, l.getD i 0 * 256 ^ (n - 1 - i)

/-- The seven steps of a bind attempt, in order. -/
def steps : List Primitive :=
  [.DH_meth_new, .DH_meth_set_generate_key, .DH_meth_set_compute_key, .ENGINE_set_id,
   .ENGINE_set_name, .ENGINE_set_DH, .ENGINE_set_init_function]

/-- A primitive reports success: `DH_meth_new` hands out a table, a setter returns 1. -/
def Host.succeeds (host : Host) : Primitive → Prop
  | .DH_meth_new => host.meth_new = true
  | .DH_meth_set_generate_key => host.set_generate_key = 1
  | .DH_meth_set_compute_key => host.set_compute_key = 1
  | .ENGINE_set_id => host.set_id = 1
  | .ENGINE_set_name => host.set_name = 1
  | .ENGINE_set_DH => host.set_DH = 1
  | .ENGINE_set_init_function => host.set_init_function = 1

instance (host : Host) (p : Primitive) : Decidable (host.succeeds p) := by
  cases p <;> unfold Host.succeeds <;> infer_instance

/-- A host on which every primitive reports success. -/
def Host.allOk : Host :=
  { meth_new := true, set_generate_key := 1, set_compute_key := 1, set_id := 1, set_name := 1,
    set_DH := 1, set_init_function := 1 }

/-- An engine on which nothing has been set yet. -/
def ENGINE.fresh : ENGINE :=
  { id := none, name := none, dh_meth := none, init := none }

/-- The number of zero bytes a byte list starts with. -/
def leadingZeros (l : List Nat) : Nat :=
  (l.takeWhile (fun b => b == 0)).length

/-- What a step of a bind attempt does, when it succeeds, to the engine and to the method
table of the attempt. -/
def stepEffect (engine_id engine_name : String) (generate_key compute_key engine_init : FnPtr) :
    Primitive → ENGINE × Option DH_METHOD → ENGINE × Option DH_METHOD
  | .DH_meth_new, (e, _) =>
    (e, some { name := "ETSI QKD Client Method", flags := 0, generate_key := none,
               compute_key := none })
  | .DH_meth_set_generate_key, (e, m) =>
    (e, m.map (fun dhm => { dhm with generate_key := some generate_key }))
  | .DH_meth_set_compute_key, (e, m) =>
    (e, m.map (fun dhm => { dhm with compute_key := some compute_key }))
  | .ENGINE_set_id, (e, m) => ({ e with id := some engine_id }, m)
  | .ENGINE_set_name, (e, m) => ({ e with name := some engine_name }, m)
  | .ENGINE_set_DH, (e, m) => ({ e with dh_meth := m }, m)
  | .ENGINE_set_init_function, (e, m) => ({ e with init := some engine_init }, m)

/-- The engine and the method table after the first `n` steps of a bind attempt on `engine`
have all succeeded, one after the other. -/
def afterSteps (engine : ENGINE) (engine_id engine_name : String)
    (generate_key compute_key engine_init : FnPtr) (n : Nat) : ENGINE × Option DH_METHOD :=
  (steps.take n).foldl
    (fun s p => stepEffect engine_id engine_name generate_key compute_key engine_init p s)
    (engine, none)

/-! ## Facts about the library model -/

theorem numBitsAux_le_iff (fuel : Nat) : ∀ m n : Nat, m ≤ fuel →
    (numBitsAux fuel m ≤ n ↔ m < 2 ^ n) := by
  induction fuel with
  | zero =>
    intro m n hm
    have h0 : m = 0 := by omega
    subst h0
    simp [numBitsAux]
  | succ fuel ih =>
    intro m n hm
    by_cases h0 : m = 0
    · subst h0
      simp [numBitsAux]
    · simp only [numBitsAux, h0, if_false]
      cases n with
      | zero =>
        simp only [pow_zero]
        omega
      | succ n =>
        have hdiv : m / 2 ≤ fuel := by omega
        rw [Nat.succ_le_succ_iff, ih (m / 2) n hdiv, pow_succ]
        exact Nat.div_lt_iff_lt_mul (by norm_num)

theorem BN_num_bits_le_iff (a : BIGNUM) (n : Nat) : BN_num_bits a ≤ n ↔ a.natAbs < 2 ^ n :=
  numBitsAux_le_iff a.natAbs a.natAbs n le_rfl

theorem BN_num_bytes_le_iff (a : BIGNUM) (n : Nat) :
    BN_num_bytes a ≤ n ↔ a.natAbs < 256 ^ n := by
  have h256 : (256 : Nat) ^ n = 2 ^ (8 * n) := by
    rw [pow_mul]
    norm_num
  rw [h256, ← BN_num_bits_le_iff]
  unfold BN_num_bytes
  omega

theorem minByteLen_le_iff (m n : Nat) : minByteLen m ≤ n ↔ m < 256 ^ n := by
  unfold minByteLen
  rw [Nat.find_le_iff]
  constructor
  · rintro ⟨k, hk, hm⟩
    exact lt_of_lt_of_le hm (Nat.pow_le_pow_right (by norm_num) hk)
  · intro h
    exact ⟨n, le_rfl, h⟩

theorem minByteLen_eq_succ (m n : Nat) (hlo : 256 ^ n ≤ m) (hhi : m < 256 ^ (n + 1)) :
    minByteLen m = n + 1 := by
  apply le_antisymm ((minByteLen_le_iff m (n + 1)).2 hhi)
  by_contra hlt
  have := (minByteLen_le_iff m n).1 (by omega)
  omega

theorem BN_num_bytes_eq_minByteLen (a : BIGNUM) : BN_num_bytes a = minByteLen a.natAbs :=
  eq_of_forall_ge_iff (fun n => by rw [BN_num_bytes_le_iff, minByteLen_le_iff])

theorem natAbs_lt_pow_num_bytes (a : BIGNUM) : a.natAbs < 256 ^ BN_num_bytes a :=
  (BN_num_bytes_le_iff a _).1 le_rfl

theorem pow_pred_num_bytes_le (a : BIGNUM) (h : BN_num_bytes a ≠ 0) :
    256 ^ (BN_num_bytes a - 1) ≤ a.natAbs := by
  by_contra hlt
  have := (BN_num_bytes_le_iff a (BN_num_bytes a - 1)).2 (by omega)
  omega

theorem foldl_bytes_acc (l : List Nat) : ∀ acc : Nat,
    l.foldl (fun v b => v * 256 + b) acc
      = acc * 256 ^ l.length + l.foldl (fun v b => v * 256 + b) 0 := by
  induction l with
  | nil => intro acc; simp
  | cons b l ih =>
    intro acc
    simp only [List.foldl_cons, List.length_cons]
    rw [ih (acc * 256 + b), ih (0 * 256 + b)]
    ring

theorem bigEndianValue_cons (b : Nat) (l : List Nat) (n : Nat) :
    bigEndianValue (b :: l) (n + 1) = b * 256 ^ n + bigEndianValue l n := by
  unfold bigEndianValue
  rw [Finset.sum_range_succ', add_comm]
  congr 1
  apply Finset.sum_congr rfl
  intro i _
  simp only [List.getD_cons_succ]
  congr 2
  omega

theorem foldl_eq_bigEndianValue (l : List Nat) :
    l.foldl (fun v b => v * 256 + b) 0 = bigEndianValue l l.length := by
  induction l with
  | nil => simp [bigEndianValue]
  | cons b l ih =>
    rw [List.foldl_cons, foldl_bytes_acc, List.length_cons, bigEndianValue_cons, ih]
    ring

theorem foldl_append_zeros (l : List Nat) (k : Nat) :
    (l ++ List.replicate k 0).foldl (fun v b => v * 256 + b) 0
      = l.foldl (fun v b => v * 256 + b) 0 * 256 ^ k := by
  induction k with
  | zero => simp
  | succ k ih =>
    rw [List.replicate_succ', ← List.append_assoc, List.foldl_append, ih]
    simp only [List.foldl_cons, List.foldl_nil]
    ring

theorem foldl_digits (L : Nat) : ∀ m : Nat, m < 256 ^ L →
    ((List.range L).map (fun j => m / 2 ^ (8 * (L - 1 - j)) % 256)).foldl
      (fun v b => v * 256 + b) 0 = m := by
  induction L with
  | zero =>
    intro m hm
    simp at hm
    simp [hm]
  | succ L ih =>
    intro m hm
    have hdiv : m / 256 < 256 ^ L := by
      rw [Nat.div_lt_iff_lt_mul (by norm_num)]
      rw [pow_succ] at hm
      exact hm
    have hmap : (List.range L).map (fun j => m / 2 ^ (8 * (L + 1 - 1 - j)) % 256)
        = (List.range L).map (fun j => m / 256 / 2 ^ (8 * (L - 1 - j)) % 256) := by
      apply List.map_congr_left
      intro j hj
      have hjL : j < L := List.mem_range.1 hj
      have he : 8 * (L + 1 - 1 - j) = 8 + 8 * (L - 1 - j) := by omega
      rw [he, pow_add, Nat.div_div_eq_div_mul]
      norm_num
    rw [List.range_succ, List.map_append, List.foldl_append, hmap, ih (m / 256) hdiv]
    simp only [List.map_cons, List.map_nil, List.foldl_cons, List.foldl_nil]
    have h0 : L + 1 - 1 - L = 0 := by omega
    rw [h0]
    simp only [mul_zero, pow_zero, Nat.div_one]
    omega

theorem length_bn2binBytes (a : BIGNUM) : (bn2binBytes a).length = BN_num_bytes a := by
  simp [bn2binBytes]

theorem foldl_bn2binBytes (a : BIGNUM) :
    (bn2binBytes a).foldl (fun v b => v * 256 + b) 0 = a.natAbs :=
  foldl_digits (BN_num_bytes a) a.natAbs (natAbs_lt_pow_num_bytes a)

theorem bn2binBytes_lt (a : BIGNUM) : ∀ b ∈ bn2binBytes a, b < 256 := by
  intro b hb
  simp only [bn2binBytes, List.mem_map] at hb
  obtain ⟨j, _, rfl⟩ := hb
  exact Nat.mod_lt _ (by norm_num)

theorem head_bn2binBytes (a : BIGNUM) (h : BN_num_bytes a ≠ 0) :
    (bn2binBytes a).head? = some (a.natAbs / 256 ^ (BN_num_bytes a - 1)) := by
  have hlt := natAbs_lt_pow_num_bytes a
  obtain ⟨k, hk⟩ : ∃ k, BN_num_bytes a = k + 1 := ⟨BN_num_bytes a - 1, by omega⟩
  have h256 : (2 : Nat) ^ (8 * k) = 256 ^ k := by
    rw [pow_mul]
    norm_num
  have hq : a.natAbs / 256 ^ k < 256 := by
    rw [Nat.div_lt_iff_lt_mul (by positivity)]
    rw [hk, pow_succ, mul_comm] at hlt
    exact hlt
  simp only [bn2binBytes, hk, List.range_succ_eq_map, List.map_cons, List.head?_cons]
  simp only [Nat.add_sub_cancel, Nat.sub_zero, h256, Nat.mod_eq_of_lt hq]

/-- What a successful `QKD_bignum_to_key_handle` leaves in an `N`-byte handle: the emitted
big-endian bytes followed by the zero padding. -/
theorem bignum_to_key_handle_eq (N : Nat) (bn : BIGNUM) (key_handle : QKD_key_handle_t)
    (hfit : BN_num_bytes bn ≤ N) (hlen : key_handle.bytes.length = N) :
    QKD_bignum_to_key_handle N bn key_handle
      = some (1, { bytes := bn2binBytes bn ++ List.replicate (N - BN_num_bytes bn) 0 }) := by
  have hL := length_bn2binBytes bn
  simp only [QKD_bignum_to_key_handle, BN_bn2bin, memset, memWrite, gt_iff_lt,
    not_lt.2 hfit, if_false, hL, if_true, List.take_zero, List.nil_append, zero_add,
    List.length_replicate]
  have h1 : List.take (BN_num_bytes bn)
      (bn2binBytes bn ++ List.drop (BN_num_bytes bn) key_handle.bytes) = bn2binBytes bn := by
    rw [List.take_append_of_le_length (by omega), List.take_of_length_le (by omega)]
  have h2 : List.drop (BN_num_bytes bn + (N - BN_num_bytes bn))
      (bn2binBytes bn ++ List.drop (BN_num_bytes bn) key_handle.bytes) = [] := by
    apply List.drop_of_length_le
    simp only [List.length_append, List.length_drop, hL]
    omega
  rw [h1, h2, List.append_nil]

theorem BN_num_bits_eq_size (a : BIGNUM) : BN_num_bits a = Nat.size a.natAbs :=
  eq_of_forall_ge_iff (fun n => by rw [BN_num_bits_le_iff, Nat.size_le])

theorem div_eight_eq_ceil (s : Nat) : (s + 7) / 8 = ⌈(s : ℚ) / 8⌉₊ := by
  apply eq_of_forall_ge_iff
  intro n
  rw [Nat.ceil_le, div_le_iff₀ (by norm_num : (0 : ℚ) < 8)]
  have hcast : ((s : ℚ) ≤ (n : ℚ) * 8) ↔ s ≤ n * 8 := by exact_mod_cast Iff.rfl
  rw [hcast]
  omega

theorem foldl_bytes_lt (l : List Nat) (hl : ∀ b ∈ l, b < 256) :
    l.foldl (fun v b => v * 256 + b) 0 < 256 ^ l.length := by
  induction l with
  | nil => simp
  | cons b t ih =>
    have hb : b < 256 := hl b (List.mem_cons_self b t)
    have ht := ih (fun c hc => hl c (List.mem_cons_of_mem b hc))
    rw [List.foldl_cons, foldl_bytes_acc, List.length_cons, pow_succ, Nat.zero_mul,
      Nat.zero_add]
    have hmul : b * 256 ^ t.length ≤ 255 * 256 ^ t.length :=
      Nat.mul_le_mul_right _ (by omega)
    omega

theorem pow_le_foldl_cons (b : Nat) (t : List Nat) (hb : b ≠ 0) :
    256 ^ t.length ≤ (b :: t).foldl (fun v c => v * 256 + c) 0 := by
  rw [List.foldl_cons, foldl_bytes_acc, Nat.zero_mul, Nat.zero_add]
  have hmul : 1 * 256 ^ t.length ≤ b * 256 ^ t.length :=
    Nat.mul_le_mul_right _ (by omega)
  omega

theorem digits_foldl (l : List Nat) (hl : ∀ b ∈ l, b < 256) :
    (List.range l.length).map
      (fun j => l.foldl (fun v b => v * 256 + b) 0 / 2 ^ (8 * (l.length - 1 - j)) % 256)
      = l := by
  induction l using List.reverseRecOn with
  | nil => simp
  | append_singleton t b ih =>
    have hb : b < 256 := hl b (by simp)
    have ht := ih (fun c hc => hl c (by simp [hc]))
    have hmap : (List.range t.length).map (fun j =>
          (t.foldl (fun v b => v * 256 + b) 0 * 256 + b) / 2 ^ (8 * (t.length + 1 - 1 - j))
            % 256)
        = (List.range t.length).map (fun j =>
          t.foldl (fun v b => v * 256 + b) 0 / 2 ^ (8 * (t.length - 1 - j)) % 256) := by
      apply List.map_congr_left
      intro j hj
      have hjL : j < t.length := List.mem_range.1 hj
      have he : 8 * (t.length + 1 - 1 - j) = 8 + 8 * (t.length - 1 - j) := by omega
      have hdiv : (t.foldl (fun v b => v * 256 + b) 0 * 256 + b) / 256
          = t.foldl (fun v b => v * 256 + b) 0 := by omega
      rw [he, pow_add, ← Nat.div_div_eq_div_mul]
      norm_num
      rw [hdiv]
    simp only [List.length_append, List.length_singleton, List.foldl_append, List.foldl_cons,
      List.foldl_nil, List.range_succ, List.map_append, List.map_cons, List.map_nil]
    rw [hmap, ht]
    have h0 : t.length + 1 - 1 - t.length = 0 := by omega
    rw [h0]
    simp only [mul_zero, pow_zero, Nat.div_one]
    congr 2
    omega

theorem foldl_dropWhile_zero (l : List Nat) :
    (l.dropWhile (fun b => b == 0)).foldl (fun v b => v * 256 + b) 0
      = l.foldl (fun v b => v * 256 + b) 0 := by
  induction l with
  | nil => simp
  | cons b t ih =>
    by_cases hb : b = 0
    · subst hb
      simp [List.dropWhile_cons, ih]
    · simp [List.dropWhile_cons, hb]

theorem head_dropWhile_zero (l : List Nat) :
    (l.dropWhile (fun b => b == 0)).head? ≠ some 0 := by
  induction l with
  | nil => simp
  | cons b t ih =>
    by_cases hb : b = 0
    · subst hb
      simpa [List.dropWhile_cons] using ih
    · simp [List.dropWhile_cons, hb]

theorem num_bytes_foldl (l : List Nat) (hl : ∀ b ∈ l, b < 256) (hhead : l.head? ≠ some 0) :
    BN_num_bytes (Int.ofNat (l.foldl (fun v b => v * 256 + b) 0)) = l.length := by
  apply le_antisymm
  · rw [BN_num_bytes_le_iff]
    exact foldl_bytes_lt l hl
  · cases l with
    | nil => simp
    | cons b t =>
      have hb : b ≠ 0 := by
        intro h
        apply hhead
        simp [h]
      by_contra hlt
      have hle : BN_num_bytes (Int.ofNat ((b :: t).foldl (fun v c => v * 256 + c) 0))
          ≤ t.length := by
        simp only [List.length_cons] at hlt
        omega
      rw [BN_num_bytes_le_iff] at hle
      have hge := pow_le_foldl_cons b t hb
      simp only [Int.ofNat_eq_coe, Int.natAbs_ofNat] at hle
      omega

theorem bn2binBytes_foldl (l : List Nat) (hl : ∀ b ∈ l, b < 256) (hhead : l.head? ≠ some 0) :
    bn2binBytes (Int.ofNat (l.foldl (fun v b => v * 256 + b) 0)) = l := by
  unfold bn2binBytes
  rw [num_bytes_foldl l hl hhead]
  exact digits_foldl l hl

/-- Encoding what a well-formed handle decodes to succeeds, and leaves the handle's bytes
from its first non-zero byte on, followed by zero bytes up to the handle size. -/
theorem bignum_to_key_handle_of_decoded (N : Nat) (h key_handle : QKD_key_handle_t)
    (hwf : h.WellFormed N) (hlen : key_handle.bytes.length = N) :
    QKD_bignum_to_key_handle N (QKD_key_handle_to_bignum N h) key_handle
      = some (1, { bytes := h.bytes.dropWhile (fun b => b == 0) ++
          List.replicate (N - (h.bytes.dropWhile (fun b => b == 0)).length) 0 }) := by
  obtain ⟨hN, hbytes⟩ := hwf
  have htake : h.bytes.take N = h.bytes := List.take_of_length_le (by omega)
  have hsub : ∀ b ∈ h.bytes.dropWhile (fun b => b == 0), b < 256 :=
    fun b hb => hbytes b ((List.dropWhile_sublist _).subset hb)
  have hdec : QKD_key_handle_to_bignum N h
      = Int.ofNat ((h.bytes.dropWhile (fun b => b == 0)).foldl (fun v b => v * 256 + b) 0) := by
    simp only [QKD_key_handle_to_bignum, BN_bin2bn, htake, foldl_dropWhile_zero]
  have hnum := num_bytes_foldl _ hsub (head_dropWhile_zero h.bytes)
  have hle : (h.bytes.dropWhile (fun b => b == 0)).length ≤ N := by
    rw [← hN]
    exact (List.dropWhile_sublist _).length_le
  rw [hdec, bignum_to_key_handle_eq N _ key_handle (by omega) hlen, hnum,
    bn2binBytes_foldl _ hsub (head_dropWhile_zero h.bytes)]

/-! ## The key-handle codec: claims -/

/-- C1 (counterexample): with `N = 4` the integer `0x01`, whose minimal byte length is 1, is
encoded as the handle `[0x01, 0x00, 0x00, 0x00]`, and decoding that handle gives `0x01000000`,
not `0x01`: the round trip does not return the integer. -/
theorem roundtrip_of_one_is_shifted :
    minByteLen 1 ≤ 4 ∧
    QKD_bignum_to_key_handle 4 1 { bytes := [0, 0, 0, 0] }
      = some (1, { bytes := [1, 0, 0, 0] }) ∧
    QKD_key_handle_to_bignum 4 { bytes := [1, 0, 0, 0] } = 16777216 ∧
    QKD_key_handle_to_bignum 4 { bytes := [1, 0, 0, 0] } ≠ 1 := by
  refine ⟨?_, by decide, by decide, by decide⟩
  rw [minByteLen_le_iff]
  norm_num

/-- C1 (amended): for a non-negative integer `x` of minimal byte length `L ≤ N`, encoding into
an `N`-byte handle succeeds, and decoding the resulting handle gives `x * 256 ^ (N - L)`, the
integer followed by the padding as low-order zero bytes; this is `x` itself when `L = N` or
`x = 0`. -/
theorem roundtrip_bignum_padded (N x : Nat) (key_handle : QKD_key_handle_t)
    (hlen : key_handle.bytes.length = N) (hx : minByteLen x ≤ N) :
    ∃ out : QKD_key_handle_t,
      QKD_bignum_to_key_handle N (x : Int) key_handle = some (1, out) ∧
      QKD_key_handle_to_bignum N out = ((x * 256 ^ (N - minByteLen x) : Nat) : Int) ∧
      (minByteLen x = N ∨ x = 0 → QKD_key_handle_to_bignum N out = (x : Int)) := by
  have hL : BN_num_bytes (x : Int) = minByteLen x := by
    rw [BN_num_bytes_eq_minByteLen, Int.natAbs_ofNat]
  have hBlen : (bn2binBytes (x : Int)).length = minByteLen x := by
    rw [length_bn2binBytes, hL]
  have hdec : QKD_key_handle_to_bignum N
      { bytes := bn2binBytes (x : Int) ++ List.replicate (N - minByteLen x) 0 }
      = ((x * 256 ^ (N - minByteLen x) : Nat) : Int) := by
    have htake : List.take N (bn2binBytes (x : Int) ++ List.replicate (N - minByteLen x) 0)
        = bn2binBytes (x : Int) ++ List.replicate (N - minByteLen x) 0 := by
      apply List.take_of_length_le
      simp only [List.length_append, List.length_replicate, hBlen]
      omega
    simp only [QKD_key_handle_to_bignum, BN_bin2bn, htake, Int.ofNat_eq_coe]
    rw [foldl_append_zeros, foldl_bn2binBytes, Int.natAbs_ofNat]
  refine ⟨{ bytes := bn2binBytes (x : Int) ++ List.replicate (N - minByteLen x) 0 }, ?_,
    hdec, ?_⟩
  · rw [bignum_to_key_handle_eq N (x : Int) key_handle (by omega) hlen, hL]
  · rintro (h | h)
    · rw [hdec, h]
      simp
    · rw [hdec, h]
      simp

/-- C1 (amended) at `N = 4`: `x = 0x01` into a handle holding `[9, 9, 9, 9]` decodes to
`0x01000000`, and `x = 0x01020304`, of minimal byte length 4, decodes to itself. -/
theorem roundtrip_bignum_padded_witness :
    (({ bytes := [9, 9, 9, 9] } : QKD_key_handle_t).bytes.length = 4 ∧
      minByteLen 1 ≤ 4 ∧
      ∃ out : QKD_key_handle_t,
        QKD_bignum_to_key_handle 4 ((1 : Nat) : Int) { bytes := [9, 9, 9, 9] }
          = some (1, out) ∧
        QKD_key_handle_to_bignum 4 out = ((1 * 256 ^ (4 - minByteLen 1) : Nat) : Int)) ∧
    (minByteLen 0x01020304 ≤ 4 ∧
      ∃ out : QKD_key_handle_t,
        QKD_bignum_to_key_handle 4 ((0x01020304 : Nat) : Int) { bytes := [9, 9, 9, 9] }
          = some (1, out) ∧
        QKD_key_handle_to_bignum 4 out = ((0x01020304 : Nat) : Int)) :=
  have h1 : minByteLen 1 ≤ 4 := (minByteLen_le_iff _ _).2 (by norm_num)
  have h4 : minByteLen 0x01020304 = 4 :=
    minByteLen_eq_succ 0x01020304 3 (by norm_num) (by norm_num)
  ⟨⟨rfl, h1,
      match roundtrip_bignum_padded 4 1 { bytes := [9, 9, 9, 9] } rfl h1 with
      | ⟨out, henc, hdec, _⟩ => ⟨out, henc, hdec⟩⟩,
    ⟨le_of_eq h4,
      match roundtrip_bignum_padded 4 0x01020304 { bytes := [9, 9, 9, 9] } rfl
        (le_of_eq h4) with
      | ⟨out, henc, _, hsame⟩ => ⟨out, henc, hsame (Or.inl h4)⟩⟩⟩

/-- C2 (counterexample): with `N = 4` the well-formed handle `[0x00, 0x01, 0x00, 0x00]`
decodes to `0x010000`, and encoding that integer succeeds with the handle
`[0x01, 0x00, 0x00, 0x00]`, which differs from the handle started from. -/
theorem roundtrip_of_leading_zero_handle_differs :
    QKD_key_handle_t.WellFormed 4 { bytes := [0, 1, 0, 0] } ∧
    QKD_key_handle_to_bignum 4 { bytes := [0, 1, 0, 0] } = 65536 ∧
    QKD_bignum_to_key_handle 4 (QKD_key_handle_to_bignum 4 { bytes := [0, 1, 0, 0] })
        { bytes := [0, 1, 0, 0] }
      = some (1, { bytes := [1, 0, 0, 0] }) ∧
    ({ bytes := [1, 0, 0, 0] } : QKD_key_handle_t) ≠ { bytes := [0, 1, 0, 0] } := by
  refine ⟨?_, by decide, by decide, by decide⟩
  unfold QKD_key_handle_t.WellFormed
  decide

/-- C2 (amended): for every well-formed `N`-byte handle `h`, encoding the integer that `h`
decodes to succeeds, whatever the destination handle held before, and the handle produced is
byte for byte `h` when the first byte of `h` is not zero or when all bytes of `h` are zero. -/
theorem roundtrip_handle_without_leading_zero (N : Nat) (h key_handle : QKD_key_handle_t)
    (hwf : h.WellFormed N) (hlen : key_handle.bytes.length = N) :
    ∃ out : QKD_key_handle_t,
      QKD_bignum_to_key_handle N (QKD_key_handle_to_bignum N h) key_handle = some (1, out) ∧
      (h.bytes.head? ≠ some 0 ∨ (∀ b ∈ h.bytes, b = 0) → out = h) := by
  refine ⟨_, bignum_to_key_handle_of_decoded N h key_handle hwf hlen, ?_⟩
  obtain ⟨hN, _⟩ := hwf
  obtain ⟨bytes⟩ := h
  simp only at hN
  rintro (hhead | hzero)
  · have hdrop : bytes.dropWhile (fun b => b == 0) = bytes := by
      cases bytes with
      | nil => rfl
      | cons b t =>
        have hb : b ≠ 0 := by
          intro hb0
          apply hhead
          simp [hb0]
        simp [List.dropWhile_cons, hb]
    simp only [hdrop, hN, Nat.sub_self, List.replicate_zero, List.append_nil]
  · have hdrop : bytes.dropWhile (fun b => b == 0) = [] := by
      rw [List.dropWhile_eq_nil_iff]
      intro b hb
      simp [hzero b hb]
    have hrep : bytes = List.replicate N 0 := by
      rw [List.eq_replicate_iff]
      exact ⟨hN, hzero⟩
    simp only [hdrop, List.length_nil, Nat.sub_zero, List.nil_append]
    rw [← hrep]

/-- C2 (amended) at `N = 4` with the handle `[0x01, 0x00, 0x02, 0x00]`, encoded into a handle
holding `[9, 9, 9, 9]`. -/
theorem roundtrip_handle_without_leading_zero_witness :
    QKD_key_handle_t.WellFormed 4 { bytes := [1, 0, 2, 0] } ∧
    ({ bytes := [9, 9, 9, 9] } : QKD_key_handle_t).bytes.length = 4 ∧
    ({ bytes := [1, 0, 2, 0] } : QKD_key_handle_t).bytes.head? ≠ some 0 ∧
    QKD_bignum_to_key_handle 4 (QKD_key_handle_to_bignum 4 { bytes := [1, 0, 2, 0] })
      { bytes := [9, 9, 9, 9] } = some (1, { bytes := [1, 0, 2, 0] }) :=
  have hwf : QKD_key_handle_t.WellFormed 4 { bytes := [1, 0, 2, 0] } := by
    unfold QKD_key_handle_t.WellFormed
    decide
  have hhead : ({ bytes := [1, 0, 2, 0] } : QKD_key_handle_t).bytes.head? ≠ some 0 := by
    decide
  ⟨hwf, rfl, hhead,
    match roundtrip_handle_without_leading_zero 4 { bytes := [1, 0, 2, 0] }
      { bytes := [9, 9, 9, 9] } hwf rfl with
    | ⟨_, henc, hsame⟩ => hsame (Or.inl hhead) ▸ henc⟩

/-- C3: an integer whose minimal byte length exceeds `N` is rejected: the function returns 0
and the handle is exactly what it was before the call. -/
theorem bignum_to_key_handle_overflow (N : Nat) (x : BIGNUM) (key_handle : QKD_key_handle_t)
    (hx : N < minByteLen x.natAbs) :
    QKD_bignum_to_key_handle N x key_handle = some (0, key_handle) := by
  rw [← BN_num_bytes_eq_minByteLen] at hx
  simp [QKD_bignum_to_key_handle, hx]

/-- C3 at `N = 4`, `x = 0x0102030405`, with a handle holding `[9, 9, 9, 9]`. -/
theorem bignum_to_key_handle_overflow_witness :
    4 < minByteLen (Int.natAbs 0x0102030405) ∧
    QKD_bignum_to_key_handle 4 0x0102030405 { bytes := [9, 9, 9, 9] }
      = some (0, { bytes := [9, 9, 9, 9] }) :=
  have h : 4 < minByteLen (Int.natAbs 0x0102030405) := by
    rw [lt_iff_not_le, minByteLen_le_iff]
    norm_num
  ⟨h, bignum_to_key_handle_overflow 4 0x0102030405 { bytes := [9, 9, 9, 9] } h⟩

/-- C4: for a non-negative integer `x` of minimal byte length `L ≤ N` and an `N`-byte handle
of any previous contents, the function returns 1 and leaves a handle of exactly `N` bytes: its
first `L` bytes are bytes whose big-endian value is `x`, byte `i` being
`x / 256 ^ (L - 1 - i) mod 256`, with a non-zero leading byte (the minimal representation, most
significant byte first), and the remaining `N - L` bytes are all zero. -/
theorem bignum_to_key_handle_layout (N x : Nat) (key_handle : QKD_key_handle_t)
    (hlen : key_handle.bytes.length = N) (hx : minByteLen x ≤ N) :
    ∃ out : QKD_key_handle_t,
      QKD_bignum_to_key_handle N (x : Int) key_handle = some (1, out) ∧
      out.bytes.length = N ∧
      (∀ b ∈ out.bytes, b < 256) ∧
      bigEndianValue (out.bytes.take (minByteLen x)) (minByteLen x) = x ∧
      (∀ i, i < minByteLen x →
        out.bytes.getD i 0 = x / 256 ^ (minByteLen x - 1 - i) % 256) ∧
      (0 < minByteLen x → out.bytes.head? ≠ some 0) ∧
      out.bytes.drop (minByteLen x) = List.replicate (N - minByteLen x) 0 := by
  have hL : BN_num_bytes (x : Int) = minByteLen x := by
    rw [BN_num_bytes_eq_minByteLen, Int.natAbs_ofNat]
  have hBlen : (bn2binBytes (x : Int)).length = minByteLen x := by
    rw [length_bn2binBytes, hL]
  refine ⟨{ bytes := bn2binBytes (x : Int) ++ List.replicate (N - minByteLen x) 0 }, ?_, ?_,
    ?_, ?_, ?_, ?_, ?_⟩
  · rw [bignum_to_key_handle_eq N (x : Int) key_handle (by omega) hlen, hL]
  · simp only [List.length_append, List.length_replicate, hBlen]
    omega
  · intro b hb
    simp only [List.mem_append, List.mem_replicate] at hb
    rcases hb with hb | ⟨_, rfl⟩
    · exact bn2binBytes_lt _ b hb
    · norm_num
  · have htake : List.take (minByteLen x)
        (bn2binBytes (x : Int) ++ List.replicate (N - minByteLen x) 0)
        = bn2binBytes (x : Int) := by
      rw [List.take_append_of_le_length (by omega), List.take_of_length_le (by omega)]
    simp only [htake]
    have hv := foldl_bn2binBytes (x : Int)
    rw [foldl_eq_bigEndianValue, hBlen, Int.natAbs_ofNat] at hv
    exact hv
  · intro i hi
    have h256 : (2 : Nat) ^ (8 * (minByteLen x - 1 - i)) = 256 ^ (minByteLen x - 1 - i) := by
      rw [pow_mul]
      norm_num
    rw [List.getD_eq_getElem?_getD, List.getElem?_append_left (by omega)]
    simp [bn2binBytes, hL, hi, h256]
  · intro hpos
    have hne : BN_num_bytes (x : Int) ≠ 0 := by omega
    have hhead := head_bn2binBytes (x : Int) hne
    have hge := pow_pred_num_bytes_le (x : Int) hne
    have hq : 0 < Int.natAbs (x : Int) / 256 ^ (BN_num_bytes (x : Int) - 1) :=
      Nat.div_pos hge (by positivity)
    have hB : bn2binBytes (x : Int) ≠ [] := by
      intro h
      rw [h] at hBlen
      simp at hBlen
      omega
    simp only [List.head?_append_of_ne_nil _ hB, hhead, ne_eq, Option.some.injEq]
    omega
  · simp only
    rw [List.drop_append_of_le_length (by omega), List.drop_of_length_le (by omega),
      List.nil_append]

/-- C4 at `N = 4`, `x = 0x0102`, with a handle holding `[9, 9, 9, 9]`. -/
theorem bignum_to_key_handle_layout_witness :
    ({ bytes := [9, 9, 9, 9] } : QKD_key_handle_t).bytes.length = 4 ∧
    minByteLen 0x0102 ≤ 4 ∧
    ∃ out : QKD_key_handle_t,
      QKD_bignum_to_key_handle 4 ((0x0102 : Nat) : Int) { bytes := [9, 9, 9, 9] }
        = some (1, out) ∧
      out.bytes.length = 4 ∧
      (∀ b ∈ out.bytes, b < 256) ∧
      bigEndianValue (out.bytes.take (minByteLen 0x0102)) (minByteLen 0x0102) = 0x0102 ∧
      (∀ i, i < minByteLen 0x0102 →
        out.bytes.getD i 0 = 0x0102 / 256 ^ (minByteLen 0x0102 - 1 - i) % 256) ∧
      (0 < minByteLen 0x0102 → out.bytes.head? ≠ some 0) ∧
      out.bytes.drop (minByteLen 0x0102) = List.replicate (4 - minByteLen 0x0102) 0 :=
  have hx : minByteLen 0x0102 ≤ 4 := (minByteLen_le_iff _ _).2 (by norm_num)
  ⟨rfl, hx, bignum_to_key_handle_layout 4 0x0102 { bytes := [9, 9, 9, 9] } rfl hx⟩

/-- C5: decoding a well-formed `N`-byte handle is a total function and gives the non-negative
integer that is the sum over `i < N` of `h[i] * 256 ^ (N - 1 - i)`: all `N` bytes count,
trailing zero bytes included. -/
theorem key_handle_to_bignum_value (N : Nat) (h : QKD_key_handle_t)
    (hwf : h.WellFormed N) :
    QKD_key_handle_to_bignum N h
      = ((∑ i in Finset.range N, h.bytes.getD i 0 * 256 ^ (N - 1 - i) : Nat) : Int) := by
  obtain ⟨hlen, _⟩ := hwf
  have htake : h.bytes.take N = h.bytes := List.take_of_length_le (by omega)
  simp only [QKD_key_handle_to_bignum, BN_bin2bn, htake, Int.ofNat_eq_coe]
  rw [foldl_eq_bigEndianValue, hlen]
  rfl

/-- C5 at `N = 4` with the handle `[0x01, 0x02, 0x00, 0x00]`, which decodes to `0x01020000`. -/
theorem key_handle_to_bignum_value_witness :
    QKD_key_handle_t.WellFormed 4 { bytes := [1, 2, 0, 0] } ∧
    QKD_key_handle_to_bignum 4 { bytes := [1, 2, 0, 0] }
      = ((∑ i in Finset.range 4,
          ({ bytes := [1, 2, 0, 0] } : QKD_key_handle_t).bytes.getD i 0 * 256 ^ (4 - 1 - i)
          : Nat) : Int) ∧
    QKD_key_handle_to_bignum 4 { bytes := [1, 2, 0, 0] } = 0x01020000 :=
  have hwf : QKD_key_handle_t.WellFormed 4 { bytes := [1, 2, 0, 0] } := by
    unfold QKD_key_handle_t.WellFormed
    decide
  ⟨hwf, key_handle_to_bignum_value 4 { bytes := [1, 2, 0, 0] } hwf, by decide⟩

/-! ## The shared-secret sizer: claims -/

/-- C6: when running on the simulator, `QKD_shared_secret_nr_bytes` returns 8 whatever the
Diffie-Hellman parameters are. -/
theorem shared_secret_nr_bytes_simulated (dh : DH) :
    QKD_shared_secret_nr_bytes true dh = 8 := by
  simp [QKD_shared_secret_nr_bytes]

/-- C7: when not running on the simulator, `QKD_shared_secret_nr_bytes` returns the minimal
byte length of the prime modulus, which is the bit length divided by 8 and rounded up; for a
modulus of bit length 512, 1024 or 2048 this is 64, 128 or 256. -/
theorem shared_secret_nr_bytes_real (dh : DH) :
    QKD_shared_secret_nr_bytes false dh = (minByteLen dh.p.natAbs : Int) ∧
    QKD_shared_secret_nr_bytes false dh = (⌈(Nat.size dh.p.natAbs : ℚ) / 8⌉₊ : Int) ∧
    (Nat.size dh.p.natAbs = 512 → QKD_shared_secret_nr_bytes false dh = 64) ∧
    (Nat.size dh.p.natAbs = 1024 → QKD_shared_secret_nr_bytes false dh = 128) ∧
    (Nat.size dh.p.natAbs = 2048 → QKD_shared_secret_nr_bytes false dh = 256) := by
  have hret : QKD_shared_secret_nr_bytes false dh = ((Nat.size dh.p.natAbs + 7) / 8 : Nat) := by
    simp [QKD_shared_secret_nr_bytes, DH_get0_pqg, BN_num_bytes, BN_num_bits_eq_size]
  refine ⟨?_, ?_, ?_, ?_, ?_⟩
  · simp [QKD_shared_secret_nr_bytes, DH_get0_pqg, BN_num_bytes_eq_minByteLen]
  · rw [hret, div_eight_eq_ceil]
  · intro h
    rw [hret, h]
    norm_num
  · intro h
    rw [hret, h]
    norm_num
  · intro h
    rw [hret, h]
    norm_num

/-- C7 at the moduli `2 ^ 511`, `2 ^ 1023` and `2 ^ 2047`, of bit length 512, 1024 and 2048. -/
theorem shared_secret_nr_bytes_real_witness :
    QKD_shared_secret_nr_bytes false { p := 2 ^ 511, q := none, g := 2 } = 64 ∧
    QKD_shared_secret_nr_bytes false { p := 2 ^ 1023, q := none, g := 2 } = 128 ∧
    QKD_shared_secret_nr_bytes false { p := 2 ^ 2047, q := none, g := 2 } = 256 :=
  have hsize : ∀ n : Nat, Nat.size (Int.natAbs (2 ^ n)) = n + 1 := by
    intro n
    rw [Int.natAbs_pow]
    exact Nat.size_pow
  ⟨(shared_secret_nr_bytes_real { p := 2 ^ 511, q := none, g := 2 }).2.2.1 (hsize 511),
   (shared_secret_nr_bytes_real { p := 2 ^ 1023, q := none, g := 2 }).2.2.2.1 (hsize 1023),
   (shared_secret_nr_bytes_real { p := 2 ^ 2047, q := none, g := 2 }).2.2.2.2 (hsize 2047)⟩

/-! ## The engine binder: claims -/

/-- C8: when all seven primitives report success, `QKD_engine_bind` returns 1 after calling
the seven primitives in order, with nothing in the error report, and the engine carries the
given identifier, the given display name, the method table named "ETSI QKD Client Method"
holding exactly the given `generate_key` and `compute_key`, and the given `engine_init`. -/
theorem engine_bind_success (host : Host) (engine : ENGINE) (engine_id engine_name : String)
    (generate_key compute_key engine_init : FnPtr) (hok : ∀ p ∈ steps, host.succeeds p) :
    QKD_engine_bind host (World.start engine) engine_id engine_name generate_key compute_key
        engine_init
      = (1, { engine :=
                { id := some engine_id
                  name := some engine_name
                  dh_meth := some { name := "ETSI QKD Client Method", flags := 0,
                                    generate_key := some generate_key,
                                    compute_key := some compute_key }
                  init := some engine_init }
              dh_method := some { name := "ETSI QKD Client Method", flags := 0,
                                  generate_key := some generate_key,
                                  compute_key := some compute_key }
              calls := steps
              report := [] }) := by
  simp only [steps, List.mem_cons, List.mem_singleton, forall_eq_or_imp, forall_eq,
    Host.succeeds, List.not_mem_nil, false_imp_iff, forall_const, and_true] at hok
  obtain ⟨h1, h2, h3, h4, h5, h6, h7⟩ := hok
  simp [QKD_engine_bind, DH_meth_new, DH_meth_set_generate_key, DH_meth_set_compute_key,
    ENGINE_set_id, ENGINE_set_name, ENGINE_set_DH, ENGINE_set_init_function, World.start,
    steps, h1, h2, h3, h4, h5, h6, h7]

/-- C8 on a fresh engine with a host on which every primitive succeeds. -/
theorem engine_bind_success_witness :
    (∀ p ∈ steps, Host.allOk.succeeds p) ∧
    QKD_engine_bind Host.allOk (World.start ENGINE.fresh) "qkd_client" "QKD client engine"
        100 200 300
      = (1, { engine :=
                { id := some "qkd_client"
                  name := some "QKD client engine"
                  dh_meth := some { name := "ETSI QKD Client Method", flags := 0,
                                    generate_key := some 100, compute_key := some 200 }
                  init := some 300 }
              dh_method := some { name := "ETSI QKD Client Method", flags := 0,
                                  generate_key := some 100, compute_key := some 200 }
              calls := steps
              report := [] }) :=
  have hok : ∀ p ∈ steps, Host.allOk.succeeds p := by decide
  ⟨hok, engine_bind_success Host.allOk ENGINE.fresh "qkd_client" "QKD client engine"
    100 200 300 hok⟩

/-- C9: if step `k` (1 to 7) is the first step whose primitive fails, `QKD_engine_bind`
returns 0 and the primitives called are exactly steps 1 to `k`, in order; when `k` is before
step 6, as for step 3, `ENGINE_set_DH` is not called and the method table attached to the
engine is what it was before the attempt. -/
theorem engine_bind_fail_fast (host : Host) (engine : ENGINE) (engine_id engine_name : String)
    (generate_key compute_key engine_init : FnPtr) (k : Nat) (p : Primitive)
    (hk : 1 ≤ k) (hp : steps[k - 1]? = some p)
    (hprev : ∀ q ∈ steps.take (k - 1), host.succeeds q) (hfail : ¬ host.succeeds p) :
    (QKD_engine_bind host (World.start engine) engine_id engine_name generate_key compute_key
        engine_init).1 = 0 ∧
    (QKD_engine_bind host (World.start engine) engine_id engine_name generate_key compute_key
        engine_init).2.calls = steps.take k ∧
    (k < 6 →
      Primitive.ENGINE_set_DH ∉ (QKD_engine_bind host (World.start engine) engine_id
        engine_name generate_key compute_key engine_init).2.calls ∧
      (QKD_engine_bind host (World.start engine) engine_id engine_name generate_key
        compute_key engine_init).2.engine.dh_meth = engine.dh_meth) := by
  have hk7 : k - 1 < 7 := by
    by_contra hge
    have hnone : steps[k - 1]? = none := List.getElem?_eq_none (by simp [steps]; omega)
    rw [hnone] at hp
    exact Option.noConfusion hp
  obtain ⟨j, rfl⟩ : ∃ j, k = j + 1 := ⟨k - 1, by omega⟩
  simp only [Nat.add_sub_cancel] at hp hprev hk7
  interval_cases j <;>
    simp only [steps, List.getElem?_cons_zero, List.getElem?_cons_succ, Option.some.injEq]
      at hp <;>
    subst hp <;>
    simp only [steps, List.take_succ_cons, List.take_zero, List.mem_cons, List.mem_singleton,
      forall_eq_or_imp, forall_eq, Host.succeeds, List.not_mem_nil, false_imp_iff,
      forall_const, and_true, Bool.not_eq_true] at hprev hfail <;>
    simp [QKD_engine_bind, DH_meth_new, DH_meth_set_generate_key, DH_meth_set_compute_key,
      ENGINE_set_id, ENGINE_set_name, ENGINE_set_DH, ENGINE_set_init_function, World.start,
      QKD_error, steps, hprev, hfail, eq_comm]

/-- C9 when step 3, `DH_meth_set_compute_key`, is the first to fail. -/
theorem engine_bind_fail_fast_witness :
    steps[3 - 1]? = some Primitive.DH_meth_set_compute_key ∧
    (∀ q ∈ steps.take (3 - 1), ({ Host.allOk with set_compute_key := 0 } : Host).succeeds q) ∧
    ¬ ({ Host.allOk with set_compute_key := 0 } : Host).succeeds
        Primitive.DH_meth_set_compute_key ∧
    (QKD_engine_bind { Host.allOk with set_compute_key := 0 } (World.start ENGINE.fresh)
        "qkd_client" "QKD client engine" 100 200 300).1 = 0 ∧
    (QKD_engine_bind { Host.allOk with set_compute_key := 0 } (World.start ENGINE.fresh)
        "qkd_client" "QKD client engine" 100 200 300).2.calls = steps.take 3 ∧
    Primitive.ENGINE_set_DH ∉ (QKD_engine_bind { Host.allOk with set_compute_key := 0 }
      (World.start ENGINE.fresh) "qkd_client" "QKD client engine" 100 200 300).2.calls ∧
    (QKD_engine_bind { Host.allOk with set_compute_key := 0 } (World.start ENGINE.fresh)
      "qkd_client" "QKD client engine" 100 200 300).2.engine.dh_meth
      = ENGINE.fresh.dh_meth :=
  have hp : steps[3 - 1]? = some Primitive.DH_meth_set_compute_key := by decide
  have hprev : ∀ q ∈ steps.take (3 - 1),
      ({ Host.allOk with set_compute_key := 0 } : Host).succeeds q := by decide
  have hfail : ¬ ({ Host.allOk with set_compute_key := 0 } : Host).succeeds
      Primitive.DH_meth_set_compute_key := by decide
  have hall := engine_bind_fail_fast { Host.allOk with set_compute_key := 0 } ENGINE.fresh
    "qkd_client" "QKD client engine" 100 200 300 3 Primitive.DH_meth_set_compute_key
    (by decide) hp hprev hfail
  ⟨hp, hprev, hfail, hall.1, hall.2.1, hall.2.2 (by decide)⟩

/-- When a setter (steps 2 to 7) is the first primitive to fail, the error report is the one
message made of that setter's C identifier followed by " failed". -/
theorem engine_bind_report_of_setter (host : Host) (engine : ENGINE)
    (engine_id engine_name : String) (generate_key compute_key engine_init : FnPtr)
    (k : Nat) (p : Primitive) (hk : 2 ≤ k) (hp : steps[k - 1]? = some p)
    (hprev : ∀ q ∈ steps.take (k - 1), host.succeeds q) (hfail : ¬ host.succeeds p) :
    (QKD_engine_bind host (World.start engine) engine_id engine_name generate_key compute_key
        engine_init).2.report = [p.name ++ " failed"] := by
  have hk7 : k - 1 < 7 := by
    by_contra hge
    have hnone : steps[k - 1]? = none := List.getElem?_eq_none (by simp [steps]; omega)
    rw [hnone] at hp
    exact Option.noConfusion hp
  obtain ⟨j, rfl⟩ : ∃ j, k = j + 2 := ⟨k - 2, by omega⟩
  have hj : j < 6 := by omega
  have hsub : j + 2 - 1 = j + 1 := rfl
  rw [hsub] at hp hprev
  interval_cases j <;>
    simp only [steps, List.getElem?_cons_zero, List.getElem?_cons_succ, Option.some.injEq]
      at hp <;>
    subst hp <;>
    simp only [steps, List.take_succ_cons, List.take_zero, List.mem_cons, List.mem_singleton,
      forall_eq_or_imp, forall_eq, Host.succeeds, List.not_mem_nil, false_imp_iff,
      forall_const, and_true, Bool.not_eq_true] at hprev hfail <;>
    simp [QKD_engine_bind, DH_meth_new, DH_meth_set_generate_key, DH_meth_set_compute_key,
      ENGINE_set_id, ENGINE_set_name, ENGINE_set_DH, ENGINE_set_init_function, World.start,
      QKD_error, Primitive.name, hprev, hfail, eq_comm]

/-- C10 (the code departs from the claim): when step 1 fails, that is `DH_meth_new` hands out
no table, `QKD_engine_bind` returns 0 having called `DH_meth_new` only, and its error report
reads "DH_new_method failed": this is not "DH_meth_new failed", the message naming the
primitive that was called. -/
theorem engine_bind_report_misnames_step_one :
    QKD_engine_bind { Host.allOk with meth_new := false } (World.start ENGINE.fresh)
        "qkd_client" "QKD client engine" 100 200 300
      = (0, { engine := ENGINE.fresh
              dh_method := none
              calls := [Primitive.DH_meth_new]
              report := ["DH_new_method failed"] }) ∧
    "DH_new_method failed" ≠ Primitive.DH_meth_new.name ++ " failed" ∧
    (∀ p ∈ steps, "DH_new_method failed" ≠ p.name ++ " failed") := by
  refine ⟨by decide, by decide, by decide⟩

/-- C11: `QKD_engine_bind` returns 1 exactly when `DH_meth_new` hands out a table and each of
the six setters returns 1; in every other case, whatever else a setter returns (0, a negative
value, a positive value other than 1), it returns 0. -/
theorem engine_bind_returns_one_iff (host : Host) (engine : ENGINE)
    (engine_id engine_name : String) (generate_key compute_key engine_init : FnPtr) :
    ((QKD_engine_bind host (World.start engine) engine_id engine_name generate_key compute_key
        engine_init).1 = 1 ↔
      host.meth_new = true ∧ host.set_generate_key = 1 ∧ host.set_compute_key = 1 ∧
        host.set_id = 1 ∧ host.set_name = 1 ∧ host.set_DH = 1 ∧
        host.set_init_function = 1) ∧
    (¬ (host.meth_new = true ∧ host.set_generate_key = 1 ∧ host.set_compute_key = 1 ∧
        host.set_id = 1 ∧ host.set_name = 1 ∧ host.set_DH = 1 ∧
        host.set_init_function = 1) →
      (QKD_engine_bind host (World.start engine) engine_id engine_name generate_key
        compute_key engine_init).1 = 0) := by
  by_cases h1 : host.meth_new = true <;>
    by_cases h2 : host.set_generate_key = 1 <;>
    by_cases h3 : host.set_compute_key = 1 <;>
    by_cases h4 : host.set_id = 1 <;>
    by_cases h5 : host.set_name = 1 <;>
    by_cases h6 : host.set_DH = 1 <;>
    by_cases h7 : host.set_init_function = 1 <;>
    simp [QKD_engine_bind, DH_meth_new, DH_meth_set_generate_key, DH_meth_set_compute_key,
      ENGINE_set_id, ENGINE_set_name, ENGINE_set_DH, ENGINE_set_init_function, World.start,
      QKD_error, h1, h2, h3, h4, h5, h6, h7, eq_comm]

/-- C11 on hosts where one setter returns 0, a negative value, or 2: bind returns 0. -/
theorem engine_bind_returns_one_iff_witness :
    (QKD_engine_bind { Host.allOk with set_id := 0 } (World.start ENGINE.fresh)
        "qkd_client" "QKD client engine" 100 200 300).1 = 0 ∧
    (QKD_engine_bind { Host.allOk with set_generate_key := -1 } (World.start ENGINE.fresh)
        "qkd_client" "QKD client engine" 100 200 300).1 = 0 ∧
    (QKD_engine_bind { Host.allOk with set_init_function := 2 } (World.start ENGINE.fresh)
        "qkd_client" "QKD client engine" 100 200 300).1 = 0 ∧
    (QKD_engine_bind Host.allOk (World.start ENGINE.fresh)
        "qkd_client" "QKD client engine" 100 200 300).1 = 1 :=
  ⟨(engine_bind_returns_one_iff { Host.allOk with set_id := 0 } ENGINE.fresh
      "qkd_client" "QKD client engine" 100 200 300).2 (by decide),
   (engine_bind_returns_one_iff { Host.allOk with set_generate_key := -1 } ENGINE.fresh
      "qkd_client" "QKD client engine" 100 200 300).2 (by decide),
   (engine_bind_returns_one_iff { Host.allOk with set_init_function := 2 } ENGINE.fresh
      "qkd_client" "QKD client engine" 100 200 300).2 (by decide),
   (engine_bind_returns_one_iff Host.allOk ENGINE.fresh
      "qkd_client" "QKD client engine" 100 200 300).1.2 (by decide)⟩

/-- C12: if step `k` (2 to 7) is the first step whose primitive fails, `QKD_engine_bind`
returns 0 and the engine and the method table are exactly what the successful steps 1 to
`k - 1` made of them, nothing being undone: from step 5 on the engine still carries the given
identifier, and at step 7 it still has the method table with the two given callbacks
attached. -/
theorem engine_bind_no_rollback (host : Host) (engine : ENGINE)
    (engine_id engine_name : String) (generate_key compute_key engine_init : FnPtr)
    (k : Nat) (p : Primitive) (hk : 2 ≤ k) (hp : steps[k - 1]? = some p)
    (hprev : ∀ q ∈ steps.take (k - 1), host.succeeds q) (hfail : ¬ host.succeeds p) :
    (QKD_engine_bind host (World.start engine) engine_id engine_name generate_key compute_key
        engine_init).1 = 0 ∧
    ((QKD_engine_bind host (World.start engine) engine_id engine_name generate_key compute_key
        engine_init).2.engine,
      (QKD_engine_bind host (World.start engine) engine_id engine_name generate_key compute_key
        engine_init).2.dh_method)
      = afterSteps engine engine_id engine_name generate_key compute_key engine_init (k - 1) ∧
    (5 ≤ k →
      (QKD_engine_bind host (World.start engine) engine_id engine_name generate_key
        compute_key engine_init).2.engine.id = some engine_id) ∧
    (k = 7 →
      (QKD_engine_bind host (World.start engine) engine_id engine_name generate_key
        compute_key engine_init).2.engine.dh_meth
        = some { name := "ETSI QKD Client Method", flags := 0,
                 generate_key := some generate_key, compute_key := some compute_key }) := by
  have hk7 : k - 1 < 7 := by
    by_contra hge
    have hnone : steps[k - 1]? = none := List.getElem?_eq_none (by simp [steps]; omega)
    rw [hnone] at hp
    exact Option.noConfusion hp
  obtain ⟨j, rfl⟩ : ∃ j, k = j + 2 := ⟨k - 2, by omega⟩
  have hj : j < 6 := by omega
  have hsub : j + 2 - 1 = j + 1 := rfl
  rw [hsub] at hp hprev
  simp only [hsub]
  interval_cases j <;>
    simp only [steps, List.getElem?_cons_zero, List.getElem?_cons_succ, Option.some.injEq]
      at hp <;>
    subst hp <;>
    simp only [steps, List.take_succ_cons, List.take_zero, List.mem_cons, List.mem_singleton,
      forall_eq_or_imp, forall_eq, Host.succeeds, List.not_mem_nil, false_imp_iff,
      forall_const, and_true, Bool.not_eq_true] at hprev hfail <;>
    simp [QKD_engine_bind, DH_meth_new, DH_meth_set_generate_key, DH_meth_set_compute_key,
      ENGINE_set_id, ENGINE_set_name, ENGINE_set_DH, ENGINE_set_init_function, World.start,
      QKD_error, afterSteps, stepEffect, steps, hprev, hfail, eq_comm]

/-- C12 when step 5, `ENGINE_set_name`, fails (the identifier stays set) and when step 7,
`ENGINE_set_init_function`, fails (the method table stays attached). -/
theorem engine_bind_no_rollback_witness :
    ((QKD_engine_bind { Host.allOk with set_name := 0 } (World.start ENGINE.fresh)
        "qkd_client" "QKD client engine" 100 200 300).1 = 0 ∧
      (QKD_engine_bind { Host.allOk with set_name := 0 } (World.start ENGINE.fresh)
        "qkd_client" "QKD client engine" 100 200 300).2.engine.id = some "qkd_client") ∧
    ((QKD_engine_bind { Host.allOk with set_init_function := 0 } (World.start ENGINE.fresh)
        "qkd_client" "QKD client engine" 100 200 300).1 = 0 ∧
      (QKD_engine_bind { Host.allOk with set_init_function := 0 } (World.start ENGINE.fresh)
        "qkd_client" "QKD client engine" 100 200 300).2.engine.dh_meth
        = some { name := "ETSI QKD Client Method", flags := 0,
                 generate_key := some 100, compute_key := some 200 }) :=
  have h5 := engine_bind_no_rollback { Host.allOk with set_name := 0 } ENGINE.fresh
    "qkd_client" "QKD client engine" 100 200 300 5 Primitive.ENGINE_set_name
    (by decide) (by decide) (by decide) (by decide)
  have h7 := engine_bind_no_rollback { Host.allOk with set_init_function := 0 } ENGINE.fresh
    "qkd_client" "QKD client engine" 100 200 300 7 Primitive.ENGINE_set_init_function
    (by decide) (by decide) (by decide) (by decide)
  ⟨⟨h5.1, h5.2.2.1 (by decide)⟩, ⟨h7.1, h7.2.2.2 rfl⟩⟩

/-! ## The key-handle codec: further facts -/

/-- Decoding what a successful encode leaves in the handle: the magnitude of the integer
followed by the padding as low-order zero bytes. -/
theorem key_handle_to_bignum_of_encoded (N : Nat) (a : BIGNUM) (hfit : BN_num_bytes a ≤ N) :
    QKD_key_handle_to_bignum N
        { bytes := bn2binBytes a ++ List.replicate (N - BN_num_bytes a) 0 }
      = ((a.natAbs * 256 ^ (N - BN_num_bytes a) : Nat) : Int) := by
  have htake : List.take N (bn2binBytes a ++ List.replicate (N - BN_num_bytes a) 0)
      = bn2binBytes a ++ List.replicate (N - BN_num_bytes a) 0 := by
    apply List.take_of_length_le
    simp only [List.length_append, List.length_replicate, length_bn2binBytes]
    omega
  simp only [QKD_key_handle_to_bignum, BN_bin2bn, htake, Int.ofNat_eq_coe]
  rw [foldl_append_zeros, foldl_bn2binBytes]

theorem num_bytes_ne_zero (x : Nat) (hx : x ≠ 0) : BN_num_bytes (x : Int) ≠ 0 := by
  intro h0
  have hle := (BN_num_bytes_le_iff (x : Int) 0).1 (le_of_eq h0)
  simp only [Int.natAbs_ofNat, pow_zero] at hle
  omega

theorem head_bn2binBytes_ne_zero (x : Nat) (hx : x ≠ 0) :
    (bn2binBytes (x : Int)).head? ≠ some 0 := by
  have hne := num_bytes_ne_zero x hx
  have hge := pow_pred_num_bytes_le (x : Int) hne
  have hq : 0 < Int.natAbs (x : Int) / 256 ^ (BN_num_bytes (x : Int) - 1) :=
    Nat.div_pos hge (by positivity)
  rw [head_bn2binBytes (x : Int) hne]
  simp only [ne_eq, Option.some.injEq]
  omega

/-- Multiplying a positive integer by `256 ^ j` appends `j` zero bytes to the bytes
`BN_bn2bin` emits. -/
theorem bn2binBytes_shift (x j : Nat) (hx : x ≠ 0) :
    bn2binBytes ((x * 256 ^ j : Nat) : Int) = bn2binBytes (x : Int) ++ List.replicate j 0 := by
  have hB : bn2binBytes (x : Int) ≠ [] := by
    intro h
    have hlen := length_bn2binBytes (x : Int)
    rw [h] at hlen
    exact num_bytes_ne_zero x hx hlen.symm
  have hl : ∀ b ∈ bn2binBytes (x : Int) ++ List.replicate j 0, b < 256 := by
    intro b hb
    simp only [List.mem_append, List.mem_replicate] at hb
    rcases hb with hb | ⟨_, rfl⟩
    · exact bn2binBytes_lt _ b hb
    · norm_num
  have hhead : (bn2binBytes (x : Int) ++ List.replicate j 0).head? ≠ some 0 := by
    rw [List.head?_append_of_ne_nil _ hB]
    exact head_bn2binBytes_ne_zero x hx
  have hval : (bn2binBytes (x : Int) ++ List.replicate j 0).foldl (fun v b => v * 256 + b) 0
      = x * 256 ^ j := by
    rw [foldl_append_zeros, foldl_bn2binBytes, Int.natAbs_ofNat]
  have h := bn2binBytes_foldl _ hl hhead
  rw [hval] at h
  exact h

/-- Encoding `x * 256 ^ j` leaves the same handle as encoding `x`, as long as the byte length
of `x` plus `j` is at most the handle size. -/
theorem bignum_to_key_handle_shift (N x j : Nat) (key_handle : QKD_key_handle_t)
    (hlen : key_handle.bytes.length = N) (hfit : BN_num_bytes (x : Int) + j ≤ N) :
    QKD_bignum_to_key_handle N ((x * 256 ^ j : Nat) : Int) key_handle
      = some (1, { bytes := bn2binBytes (x : Int) ++
          List.replicate (N - BN_num_bytes (x : Int)) 0 }) := by
  by_cases hx : x = 0
  · subst hx
    rw [Nat.zero_mul]
    exact bignum_to_key_handle_eq N _ key_handle (by omega) hlen
  · have hbytes := bn2binBytes_shift x j hx
    have hnum : BN_num_bytes ((x * 256 ^ j : Nat) : Int) = BN_num_bytes (x : Int) + j := by
      rw [← length_bn2binBytes, hbytes, List.length_append, List.length_replicate,
        length_bn2binBytes]
    rw [bignum_to_key_handle_eq N _ key_handle (by omega) hlen, hbytes, hnum,
      List.append_assoc, List.append_replicate_replicate]
    have hsum : j + (N - (BN_num_bytes (x : Int) + j)) = N - BN_num_bytes (x : Int) := by
      omega
    rw [hsum]

/-- Padding the bytes of an `N`-byte list from its first non-zero byte on with zero bytes gives
back the list exactly when the list does not start with a zero byte or holds zero bytes
only. -/
theorem dropWhile_pad_eq_iff (N : Nat) (l : List Nat) (hN : l.length = N) :
    l.dropWhile (fun b => b == 0) ++
        List.replicate (N - (l.dropWhile (fun b => b == 0)).length) 0 = l
      ↔ (l.head? ≠ some 0 ∨ ∀ b ∈ l, b = 0) := by
  constructor
  · intro heq
    cases l with
    | nil => left; simp
    | cons b t =>
      by_cases hb : b = 0
      · right
        subst hb
        by_contra hnz
        have hdw : (0 :: t).dropWhile (fun b => b == 0) ≠ [] := by
          intro hnil
          rw [List.dropWhile_eq_nil_iff] at hnil
          apply hnz
          intro c hc
          simpa using hnil c hc
        have hhead := head_dropWhile_zero (0 :: t)
        have hh := congrArg List.head? heq
        rw [List.head?_append_of_ne_nil _ hdw] at hh
        rw [hh] at hhead
        simp at hhead
      · left
        simp [hb]
  · rintro (hhead | hzero)
    · have hdrop : l.dropWhile (fun b => b == 0) = l := by
        cases l with
        | nil => rfl
        | cons b t =>
          have hb : b ≠ 0 := by
            intro hb0
            apply hhead
            simp [hb0]
          simp [List.dropWhile_cons, hb]
      simp only [hdrop, hN, Nat.sub_self, List.replicate_zero, List.append_nil]
    · have hdrop : l.dropWhile (fun b => b == 0) = [] := by
        rw [List.dropWhile_eq_nil_iff]
        intro b hb
        simp [hzero b hb]
      have hrep : l = List.replicate N 0 := by
        rw [List.eq_replicate_iff]
        exact ⟨hN, hzero⟩
      simp only [hdrop, List.length_nil, Nat.sub_zero, List.nil_append]
      rw [← hrep]

/-- The bytes of a list from its first non-zero byte on are the list with its leading zero
bytes dropped, and their number is the length less the number of leading zero bytes. -/
theorem dropWhile_zero_eq_drop (l : List Nat) :
    l.dropWhile (fun b => b == 0) = l.drop (leadingZeros l) ∧
    (l.dropWhile (fun b => b == 0)).length = l.length - leadingZeros l := by
  have happ := List.takeWhile_append_dropWhile (fun b => b == 0) l
  have hdrop : l.drop (leadingZeros l) = l.dropWhile (fun b => b == 0) := by
    unfold leadingZeros
    have h := List.drop_left (l.takeWhile (fun b => b == 0)) (l.dropWhile (fun b => b == 0))
    rw [happ] at h
    exact h
  refine ⟨hdrop.symm, ?_⟩
  rw [← hdrop, List.length_drop]

/-! ## The key-handle codec: what the round trips give -/

/-- C13: for a non-negative integer `x` of minimal byte length `L ≤ N`, encoding succeeds and
decoding the handle produced gives `x * 256 ^ (N - L)`; the decoded value is `x` exactly when
`x = 0` or `L = N`. -/
theorem decode_encode_value (N x : Nat) (key_handle : QKD_key_handle_t)
    (hlen : key_handle.bytes.length = N) (hx : minByteLen x ≤ N) :
    ∃ out : QKD_key_handle_t,
      QKD_bignum_to_key_handle N (x : Int) key_handle = some (1, out) ∧
      QKD_key_handle_to_bignum N out = ((x * 256 ^ (N - minByteLen x) : Nat) : Int) ∧
      (QKD_key_handle_to_bignum N out = (x : Int) ↔ x = 0 ∨ minByteLen x = N) := by
  have hL : BN_num_bytes (x : Int) = minByteLen x := by
    rw [BN_num_bytes_eq_minByteLen, Int.natAbs_ofNat]
  have hdec := key_handle_to_bignum_of_encoded N (x : Int) (by omega)
  rw [Int.natAbs_ofNat, hL] at hdec
  refine ⟨{ bytes := bn2binBytes (x : Int) ++ List.replicate (N - minByteLen x) 0 }, ?_,
    hdec, ?_⟩
  · rw [bignum_to_key_handle_eq N (x : Int) key_handle (by omega) hlen, hL]
  · rw [hdec, Nat.cast_inj]
    constructor
    · intro heq
      by_cases h0 : x = 0
      · exact Or.inl h0
      · right
        have hpow : 256 ^ (N - minByteLen x) = 1 := by
          have hpos : 0 < x := Nat.pos_of_ne_zero h0
          have h1 : x * 256 ^ (N - minByteLen x) = x * 1 := by rw [heq, Nat.mul_one]
          exact Nat.eq_of_mul_eq_mul_left hpos h1
        have hexp : N - minByteLen x = 0 := by
          by_contra hne
          have hlt : 1 < 256 ^ (N - minByteLen x) := Nat.one_lt_pow hne (by norm_num)
          omega
        omega
    · rintro (h0 | hN)
      · rw [h0, Nat.zero_mul]
      · rw [hN, Nat.sub_self, pow_zero, Nat.mul_one]

/-- C13 at `N = 4`, `x = 0x0102`, with a handle holding `[9, 9, 9, 9]`: the decoded value is
`0x0102 * 256 ^ 2`. -/
theorem decode_encode_value_witness :
    ({ bytes := [9, 9, 9, 9] } : QKD_key_handle_t).bytes.length = 4 ∧
    minByteLen 0x0102 ≤ 4 ∧
    ∃ out : QKD_key_handle_t,
      QKD_bignum_to_key_handle 4 ((0x0102 : Nat) : Int) { bytes := [9, 9, 9, 9] }
        = some (1, out) ∧
      QKD_key_handle_to_bignum 4 out = ((0x0102 * 256 ^ (4 - minByteLen 0x0102) : Nat) : Int) ∧
      (QKD_key_handle_to_bignum 4 out = ((0x0102 : Nat) : Int)
        ↔ 0x0102 = 0 ∨ minByteLen 0x0102 = 4) :=
  have hx : minByteLen 0x0102 ≤ 4 := (minByteLen_le_iff _ _).2 (by norm_num)
  ⟨rfl, hx, decode_encode_value 4 0x0102 { bytes := [9, 9, 9, 9] } rfl hx⟩

/-- C14: encoding is not injective.  When `N ≥ 2`, the distinct integers `0x01` and `0x0100`
both fit and both leave the handle `[0x01, 0x00, ..., 0x00]`; and for every `x` and `j` with
the byte length of `x` plus `j` at most `N`, encoding `x * 256 ^ j` succeeds and leaves the
handle that encoding `x` leaves. -/
theorem bignum_to_key_handle_not_injective (N : Nat) (h1 h2 : QKD_key_handle_t)
    (hlen1 : h1.bytes.length = N) (hlen2 : h2.bytes.length = N) :
    (2 ≤ N →
      (1 : Nat) ≠ 0x0100 ∧ minByteLen 1 ≤ N ∧ minByteLen 0x0100 ≤ N ∧
      QKD_bignum_to_key_handle N ((1 : Nat) : Int) h1
        = some (1, { bytes := 1 :: List.replicate (N - 1) 0 }) ∧
      QKD_bignum_to_key_handle N ((0x0100 : Nat) : Int) h2
        = some (1, { bytes := 1 :: List.replicate (N - 1) 0 })) ∧
    (∀ x j : Nat, minByteLen x + j ≤ N →
      ∃ out : QKD_key_handle_t,
        QKD_bignum_to_key_handle N (x : Int) h1 = some (1, out) ∧
        QKD_bignum_to_key_handle N ((x * 256 ^ j : Nat) : Int) h2 = some (1, out)) := by
  have hL : ∀ x : Nat, BN_num_bytes (x : Int) = minByteLen x := by
    intro x
    rw [BN_num_bytes_eq_minByteLen, Int.natAbs_ofNat]
  constructor
  · intro hN
    have hb1 : bn2binBytes ((1 : Nat) : Int) = [1] := by decide
    have hn1 : BN_num_bytes ((1 : Nat) : Int) = 1 := by decide
    have hm1 : minByteLen 1 = 1 := by rw [← hL 1, hn1]
    have h256 : (0x0100 : Nat) = 1 * 256 ^ 1 := by norm_num
    have hm256 : minByteLen 0x0100 = 2 := minByteLen_eq_succ 0x0100 1 (by norm_num) (by norm_num)
    refine ⟨by norm_num, by omega, by omega, ?_, ?_⟩
    · rw [bignum_to_key_handle_eq N _ h1 (by omega) hlen1, hb1, hn1]
      rfl
    · rw [h256, bignum_to_key_handle_shift N 1 1 h2 hlen2 (by omega), hb1, hn1]
      rfl
  · intro x j hfit
    refine ⟨{ bytes := bn2binBytes (x : Int) ++
      List.replicate (N - BN_num_bytes (x : Int)) 0 }, ?_, ?_⟩
    · exact bignum_to_key_handle_eq N _ h1 (by rw [hL]; omega) hlen1
    · exact bignum_to_key_handle_shift N x j h2 hlen2 (by rw [hL]; omega)

/-- C14 at `N = 4` with handles holding `[9, 9, 9, 9]` and `[7, 7, 7, 7]`: `0x01` and `0x0100`
both leave `[0x01, 0x00, 0x00, 0x00]`. -/
theorem bignum_to_key_handle_not_injective_witness :
    ({ bytes := [9, 9, 9, 9] } : QKD_key_handle_t).bytes.length = 4 ∧
    ({ bytes := [7, 7, 7, 7] } : QKD_key_handle_t).bytes.length = 4 ∧
    (1 : Nat) ≠ 0x0100 ∧ minByteLen 1 ≤ 4 ∧ minByteLen 0x0100 ≤ 4 ∧
    QKD_bignum_to_key_handle 4 ((1 : Nat) : Int) { bytes := [9, 9, 9, 9] }
      = some (1, { bytes := 1 :: List.replicate (4 - 1) 0 }) ∧
    QKD_bignum_to_key_handle 4 ((0x0100 : Nat) : Int) { bytes := [7, 7, 7, 7] }
      = some (1, { bytes := 1 :: List.replicate (4 - 1) 0 }) :=
  ⟨rfl, rfl,
    (bignum_to_key_handle_not_injective 4 { bytes := [9, 9, 9, 9] } { bytes := [7, 7, 7, 7] }
      rfl rfl).1 (by decide)⟩

/-- C15: for a non-negative integer `x` of minimal byte length at most `N`, encoding `x`
succeeds, and encoding what the handle produced decodes to succeeds as well and leaves that
same handle, byte for byte. -/
theorem key_handle_stable_after_roundtrip (N x : Nat) (h1 h2 : QKD_key_handle_t)
    (hlen1 : h1.bytes.length = N) (hlen2 : h2.bytes.length = N) (hx : minByteLen x ≤ N) :
    ∃ out : QKD_key_handle_t,
      QKD_bignum_to_key_handle N (x : Int) h1 = some (1, out) ∧
      QKD_bignum_to_key_handle N (QKD_key_handle_to_bignum N out) h2 = some (1, out) := by
  have hL : BN_num_bytes (x : Int) = minByteLen x := by
    rw [BN_num_bytes_eq_minByteLen, Int.natAbs_ofNat]
  refine ⟨{ bytes := bn2binBytes (x : Int) ++
    List.replicate (N - BN_num_bytes (x : Int)) 0 }, ?_, ?_⟩
  · exact bignum_to_key_handle_eq N _ h1 (by omega) hlen1
  · rw [key_handle_to_bignum_of_encoded N (x : Int) (by omega), Int.natAbs_ofNat]
    exact bignum_to_key_handle_shift N x _ h2 hlen2 (by omega)

/-- C15 at `N = 4`, `x = 0x0102`: the handle `[0x01, 0x02, 0x00, 0x00]` is produced again. -/
theorem key_handle_stable_after_roundtrip_witness :
    ({ bytes := [9, 9, 9, 9] } : QKD_key_handle_t).bytes.length = 4 ∧
    ({ bytes := [7, 7, 7, 7] } : QKD_key_handle_t).bytes.length = 4 ∧
    minByteLen 0x0102 ≤ 4 ∧
    ∃ out : QKD_key_handle_t,
      QKD_bignum_to_key_handle 4 ((0x0102 : Nat) : Int) { bytes := [9, 9, 9, 9] }
        = some (1, out) ∧
      QKD_bignum_to_key_handle 4 (QKD_key_handle_to_bignum 4 out) { bytes := [7, 7, 7, 7] }
        = some (1, out) :=
  have hx : minByteLen 0x0102 ≤ 4 := (minByteLen_le_iff _ _).2 (by norm_num)
  ⟨rfl, rfl, hx,
    key_handle_stable_after_roundtrip 4 0x0102 { bytes := [9, 9, 9, 9] }
      { bytes := [7, 7, 7, 7] } rfl rfl hx⟩

/-- C16: for every well-formed `N`-byte handle `h`, encoding the integer `h` decodes to always
succeeds; the handle produced is `h` if and only if the first byte of `h` is not zero or all
bytes of `h` are zero; and with `z` the number of leading zero bytes of `h`, the handle
produced is `h` without its first `z` bytes, followed by `z` zero bytes. -/
theorem encode_decode_characterisation (N : Nat) (h key_handle : QKD_key_handle_t)
    (hwf : h.WellFormed N) (hlen : key_handle.bytes.length = N) :
    ∃ out : QKD_key_handle_t,
      QKD_bignum_to_key_handle N (QKD_key_handle_to_bignum N h) key_handle = some (1, out) ∧
      (out = h ↔ (h.bytes.head? ≠ some 0 ∨ ∀ b ∈ h.bytes, b = 0)) ∧
      out.bytes = h.bytes.drop (leadingZeros h.bytes) ++
        List.replicate (leadingZeros h.bytes) 0 := by
  refine ⟨_, bignum_to_key_handle_of_decoded N h key_handle hwf hlen, ?_, ?_⟩
  · obtain ⟨hN, _⟩ := hwf
    obtain ⟨bytes⟩ := h
    simp only at hN
    simp only [QKD_key_handle_t.mk.injEq]
    exact dropWhile_pad_eq_iff N bytes hN
  · obtain ⟨hN, _⟩ := hwf
    obtain ⟨hdrop, hdlen⟩ := dropWhile_zero_eq_drop h.bytes
    have hz : leadingZeros h.bytes ≤ h.bytes.length := by
      unfold leadingZeros
      exact (List.takeWhile_sublist _).length_le
    simp only
    rw [hdlen, hdrop, hN]
    congr 2
    omega

/-- C16 at `N = 4` with the handle `[0x00, 0x00, 0x05, 0x06]`, which has two leading zero
bytes and comes back as `[0x05, 0x06, 0x00, 0x00]`. -/
theorem encode_decode_characterisation_witness :
    QKD_key_handle_t.WellFormed 4 { bytes := [0, 0, 5, 6] } ∧
    ({ bytes := [9, 9, 9, 9] } : QKD_key_handle_t).bytes.length = 4 ∧
    QKD_bignum_to_key_handle 4 (QKD_key_handle_to_bignum 4 { bytes := [0, 0, 5, 6] })
      { bytes := [9, 9, 9, 9] } = some (1, { bytes := [5, 6, 0, 0] }) :=
  have hwf : QKD_key_handle_t.WellFormed 4 { bytes := [0, 0, 5, 6] } := by
    unfold QKD_key_handle_t.WellFormed
    decide
  ⟨hwf, rfl,
    match encode_decode_characterisation 4 { bytes := [0, 0, 5, 6] } { bytes := [9, 9, 9, 9] }
      hwf rfl with
    | ⟨out, henc, _, hbytes⟩ =>
      have hout : out = { bytes := [5, 6, 0, 0] } := by
        cases out
        simp only [QKD_key_handle_t.mk.injEq]
        exact hbytes.trans (by decide)
      hout ▸ henc⟩

end QKD
